import Mathlib

/-!
Verification of the AstroPhoenix incremental search index.

The definitions below are a shallow embedding of the search core of
`src/src/App.tsx` (helpers `tokenize`, `makeExcerpt`, the indexing loop of
`fetchManifestAndIndex` / `next` / `indexDoc`, and the query pipeline
`doSearch`).  JavaScript strings are modelled by Lean `String` (character
based; `toLowerCase` is ASCII `String.toLower`), JS `Map`/`Set` by
insertion-ordered association lists / duplicate-free lists, JS numbers by
`ℤ`/`ℕ`/`ℚ` with `Math.round x = ⌊x + 1/2⌋`.  The two external collaborators
that are not part of the repository — the Fuse.js fuzzy matcher and the
AI-summarisation endpoint — are taken as oracle parameters (a function from
a corpus and query to scored hits, and a function from prompts to text).
The network is an oracle mapping each URL to an outcome.
-/

namespace AstroPhoenix

/-- JS `Math.round` on a rational: round half up, `⌊x + 1/2⌋`. -/
def jsRound (x : ℚ) : ℤ := ⌊x + 1/2⌋

/-- JS `toLowerCase` on one character, restricted to ASCII (the identifiers
and queries of this corpus): `A-Z` mapped down, everything else unchanged. -/
def jsToLowerChar (c : Char) : Char :=
  if 'A' ≤ c && c ≤ 'Z' then Char.ofNat (c.toNat + 32) else c

/-- JS `String.prototype.toLowerCase` (ASCII model). -/
def toLowerStr (s : String) : String := String.mk (s.data.map jsToLowerChar)

/-- A character removed by JS `String.prototype.trim`: the WhiteSpace and
LineTerminator characters of the ECMAScript grammar. -/
def isJsSpace (c : Char) : Bool :=
  c == ' ' || c == '\t' || c == '\n' || c == '\r' || c == '\u000b' || c == '\u000c' ||
    c == '\u00a0' || c == '\u1680' || ('\u2000' ≤ c && c ≤ '\u200a') || c == '\u2028' ||
    c == '\u2029' || c == '\u202f' || c == '\u205f' || c == '\u3000' || c == '\ufeff'

/-- JS `String.prototype.trim`: strip leading and trailing whitespace. -/
def jsTrim (s : String) : String :=
  String.mk (((s.data.dropWhile isJsSpace).reverse.dropWhile isJsSpace).reverse)

/-- Split at every character satisfying `p` (runs of separators produce
empty pieces, exactly as splitting at each separator character does). -/
def splitGo (p : Char → Bool) : List Char → List Char → List String
  | [], cur => [String.mk cur.reverse]
  | c :: t, cur =>
    if p c then String.mk cur.reverse :: splitGo p t [] else splitGo p t (c :: cur)

/-- Split a string at every separator character. -/
def splitStr (s : String) (p : Char → Bool) : List String := splitGo p s.data []

/-- A character the tokenizer keeps: the complement of the split regex
`[^a-z0-9]+` applied after `toLowerCase`. -/
def isTokenChar (c : Char) : Bool := ('a' ≤ c && c ≤ 'z') || c.isDigit

/-- `tokenize` from App.tsx: lowercase, split on runs of non-`[a-z0-9]`
characters, drop empty pieces (`.filter(Boolean)`; splitting at each
separator character and dropping empties equals splitting at separator
runs). -/
def tokenize (text : String) : List String :=
  (splitStr (toLowerStr text) (fun c => !(isTokenChar c))).filter (fun t => t ≠ "")

/-- JS `String.prototype.indexOf` over character lists: the position of the
first occurrence of `needle`, `none` for JS `-1`. -/
def idxOfAux (needle : List Char) : List Char → Option ℕ
  | [] => if needle = [] then some 0 else none
  | c :: t =>
    if needle.isPrefixOf (c :: t) then some 0 else (idxOfAux needle t).map (· + 1)

/-- `hay.indexOf(needle)` (`none` = `-1`). -/
def strIndexOf (hay needle : String) : Option ℕ := idxOfAux needle.data hay.data

/-- `hay.includes(needle)` — JS substring containment. -/
def strContains (hay needle : String) : Bool := (strIndexOf hay needle).isSome

/-- Count of non-overlapping, left-to-right occurrences of `needle`: the
value of `(hay.match(new RegExp(escapeRegex(needle), "g")) || []).length` —
`escapeRegex` makes the pattern a literal, so the global match scans left to
right and resumes after each match. -/
def countOccsAux (needle : List Char) : List Char → ℕ → ℕ
  | [], _ => 0
  | c :: t, skip =>
    if 0 < skip then countOccsAux needle t (skip - 1)
    else if needle.isPrefixOf (c :: t) then 1 + countOccsAux needle t (needle.length - 1)
    else countOccsAux needle t 0

/-- String-level wrapper for `countOccsAux` (start with nothing to skip). -/
def countOccs (hay needle : String) : ℕ := countOccsAux needle.data hay.data 0

/-- JS `s.slice(a, b)` for non-negative indices: the characters in `[a, b)`,
clamped to the string. -/
def sliceStr (s : String) (a b : ℕ) : String := String.mk ((s.data.drop a).take (b - a))

/-- `makeExcerpt(content, idx, matchLen, len = 220)` from App.tsx.  The
`matchLen` parameter is accepted (the call sites pass the phrase length) but,
as in the source, never used.  `start = Math.max(0, idx - Math.floor(len/2))`
is natural subtraction here. -/
def makeExcerpt (content : String) (idx : ℕ) (matchLen : ℕ) : String :=
  let len : ℕ := 220
  let start : ℕ := idx - len / 2
  let snippet := sliceStr content start (min content.length (start + len))
  (if 0 < start then "…" else "") ++ snippet ++
    (if start + len < content.length then "…" else "")

/-- A character `encodeURIComponent` leaves as-is: `A-Z a-z 0-9 - _ . ! ~ * ' ( )`. -/
def isUnreservedChar (c : Char) : Bool :=
  c.isAlpha || c.isDigit || c == '-' || c == '_' || c == '.' || c == '!' ||
    c == '~' || c == '*' || c == '\'' || c == '(' || c == ')'

/-- Upper-case hex digit of `n < 16`. -/
def hexDigitChar (n : ℕ) : Char :=
  if n < 10 then Char.ofNat ('0'.toNat + n) else Char.ofNat ('A'.toNat + (n - 10))

/-- The UTF-8 encoding of one character, as byte values. -/
def utf8Bytes (c : Char) : List ℕ :=
  let n := c.toNat
  if n < 128 then [n]
  else if n < 2048 then [192 + n / 64, 128 + n % 64]
  else if n < 65536 then [224 + n / 4096, 128 + (n / 64) % 64, 128 + n % 64]
  else [240 + n / 262144, 128 + (n / 4096) % 64, 128 + (n / 64) % 64, 128 + n % 64]

/-- `%XX` escape of one byte. -/
def byteHex (b : ℕ) : String :=
  String.mk ['%', hexDigitChar (b / 16), hexDigitChar (b % 16)]

/-- JS `encodeURIComponent`: unreserved characters kept, every other
character percent-encoded byte-by-byte in UTF-8. -/
def encodeURIComponent (s : String) : String :=
  s.data.foldl
    (fun acc c =>
      if isUnreservedChar c then acc.push c
      else acc ++ String.join ((utf8Bytes c).map byteHex))
    ""

/-- Outcome of one `fetch` (reading the body folded in): a success with the
body text, a response with `!r.ok`, or a thrown network error. -/
inductive FetchOutcome
  | ok (body : String)
  | notOk
  | threw
deriving Repr, DecidableEq

/-- The network as an oracle from URL to outcome. -/
def Network : Type := String → FetchOutcome

/-- The per-document fetch of `next()` in App.tsx: try
`BASE_URL + encodeURIComponent(filename)`; if the response is not ok, retry
with `BASE_URL + filename`; if that is also not ok, the document gets empty
content.  A thrown error anywhere lands in the `catch`, which indexes the
document with empty content — in particular a throw on the *first* attempt
skips the raw-path retry. -/
def fetchContent (net : Network) (baseUrl filename : String) : String :=
  match net (baseUrl ++ encodeURIComponent filename) with
  | .ok t => t
  | .notOk =>
    match net (baseUrl ++ filename) with
    | .ok t => t
    | .notOk => ""
    | .threw => ""
  | .threw => ""

/-- A document of the table: `{id, title, content, url}`. -/
structure Doc where
  id : String
  title : String
  content : String
  url : String
deriving Repr, DecidableEq

/-- `filename.replace(/\.txt$/i, "")` — strip one case-insensitive `.txt`
suffix. -/
def stripTxt (f : String) : String :=
  if toLowerStr (f.takeRight 4) = ".txt" then f.dropRight 4 else f

/-- The document built for one manifest entry (every branch of `next()`
builds `{ id: filename, title: filename.replace(/\.txt$/i, ""), content, url }`). -/
def mkDoc (net : Network) (baseUrl filename url : String) : Doc :=
  { id := filename, title := stripTxt filename,
    content := fetchContent net baseUrl filename, url := url }

/-- JS `Map.prototype.set` on a list of documents keyed by `id`: replace in
place if the key exists, else append (insertion order preserved). -/
def setDoc : List Doc → Doc → List Doc
  | [], d => [d]
  | e :: rest, d => if e.id = d.id then d :: rest else e :: setDoc rest d

/-- JS `Set.prototype.add`: append unless already present. -/
def addUnique (l : List String) (x : String) : List String :=
  if x ∈ l then l else l ++ [x]

/-- Insertion-ordered deduplication — the contents of
`new Set([...xs])` as a list. -/
def dedupKeepFirst (l : List String) : List String := l.foldl addUnique []

/-- The inverted index: insertion-ordered association list from token to its
posting set (itself an insertion-ordered duplicate-free list). -/
def InvIdx : Type := List (String × List String)

/-- `invertedRef.current.get(t)` — `none` when the token has no entry. -/
def invGet : InvIdx → String → Option (List String)
  | [], _ => none
  | (t', s) :: rest, t => if t' = t then some s else invGet rest t

/-- The posting set of a token, empty when absent. -/
def invLookup (inv : InvIdx) (t : String) : List String := (invGet inv t).getD []

/-- Get-or-create the posting set of `t` and `add` the id into it
(`let s = inverted.get(t); if (!s) { s = new Set(); inverted.set(t, s) } s.add(id)`). -/
def invInsert : InvIdx → String → String → InvIdx
  | [], t, id => [(t, [id])]
  | (t', s) :: rest, t, id =>
    if t' = t then (t', addUnique s id) :: rest else (t', s) :: invInsert rest t id

/-- `new Set([...tokenize(d.title), ...tokenize(d.content)])` from `indexDoc`. -/
def docTokens (d : Doc) : List String :=
  dedupKeepFirst (tokenize d.title ++ tokenize d.content)

/-- The mutable state of one indexing run: the document table, the inverted
index and the completed-document counter.  The Fuse index is kept in sync
with `docs` by the source (incremental `add`, with a rebuild-from-table
fallback), so its corpus is the `docs` table itself. -/
structure IndexState where
  docs : List Doc
  inverted : InvIdx
  done : ℕ

/-- State before any document arrives. -/
def initState : IndexState := ⟨[], [], 0⟩

/-- `indexDoc(d)` from App.tsx: set the id in the docs map and add the id to
the posting set of every token of title and content. -/
def indexDoc (st : IndexState) (d : Doc) : IndexState :=
  { st with
    docs := setDoc st.docs d
    inverted := (docTokens d).foldl (fun inv t => invInsert inv t d.id) st.inverted }

/-- One completed iteration of a worker: fetch (with fallback), index, and
`done++` in the `finally`. -/
def step (net : Network) (baseUrl : String) (st : IndexState) (p : String × String) :
    IndexState :=
  let st' := indexDoc st (mkDoc net baseUrl p.1 p.2)
  { st' with done := st'.done + 1 }

/-- The final state of the worker pool of `fetchManifestAndIndex`.  Each
`next()` pops one filename from `queue` and one url from `urlqueue` together
and stops as soon as *either* queue is empty, so exactly
`min (manifest.length) (urls.length)` entries are processed; since `done++`,
the table insertion and the index insertion all happen for every processed
entry regardless of fetch outcome, and the single-threaded event loop never
interleaves two `indexDoc` calls, the end state is the left fold of `step`
over the zipped queues. -/
def runIndex (net : Network) (baseUrl : String) (manifest urls : List String) :
    IndexState :=
  (manifest.zip urls).foldl (step net baseUrl) initState

/-- A row of the result list: `{id, title, excerpt, score, matches, content, url}`. -/
structure SearchResult where
  id : String
  title : String
  excerpt : String
  score : ℤ
  -- the source's field is named `matches`; that word is a Lean keyword
  matchCount : ℕ
  content : String
  url : String
deriving Repr, DecidableEq

/-- `hitsMap.has(id)` on the map modelled as its insertion-ordered entry list. -/
def hasId (m : List SearchResult) (id : String) : Bool := m.any (fun r => r.id = id)

/-- `hitsMap.set(r.id, r)`: replace in place, else append. -/
def setSR : List SearchResult → SearchResult → List SearchResult
  | [], r => [r]
  | e :: rest, r => if e.id = r.id then r :: rest else e :: setSR rest r

/-- The test `/^".+"$/.test(q)`: first and last character are `"`, with at
least one character between them, none of which is a line terminator (JS `.`
excludes `\n`, `\r`, U+2028, U+2029). -/
def jsIsQuoted (q : String) : Bool :=
  3 ≤ q.length && ['"'].isPrefixOf q.data && ['"'].isSuffixOf q.data &&
    ((q.data.drop 1).dropLast.all
      (fun c => c ≠ '\n' && c ≠ '\r' && c ≠ '\u2028' && c ≠ '\u2029'))

/-- `const phrase = isQuoted ? q.slice(1, -1).toLowerCase() : q.toLowerCase()`. -/
def phraseOf (q : String) : String :=
  if jsIsQuoted q then toLowerStr (String.mk ((q.data.drop 1).dropLast)) else toLowerStr q

/-- The tier-0 entry for a document whose lowercased title contains the phrase. -/
def mkTier0 (phrase : String) (d : Doc) : SearchResult :=
  { id := d.id, title := d.title, excerpt := d.title, score := 0,
    matchCount := countOccs (toLowerStr d.title) phrase, content := d.content, url := d.url }

/-- Pass 1 of `doSearch`: exact phrase in title. -/
def afterTier0 (phrase : String) (docs : List Doc) : List SearchResult :=
  docs.foldl
    (fun m d => if strContains (toLowerStr d.title) phrase then setSR m (mkTier0 phrase d) else m)
    []

/-- The tier-1 entry for a document whose lowercased content contains the
phrase at index `idx`. -/
def mkTier1 (phrase : String) (d : Doc) (idx : ℕ) : SearchResult :=
  { id := d.id, title := d.title, excerpt := makeExcerpt d.content idx phrase.length,
    score := 10, matchCount := countOccs (toLowerStr d.content) phrase,
    content := d.content, url := d.url }

/-- Pass 2 of `doSearch`: exact phrase in content, skipping ids already in
the map. -/
def afterTier1 (phrase : String) (docs : List Doc) (m0 : List SearchResult) :
    List SearchResult :=
  docs.foldl
    (fun m d =>
      if hasId m d.id then m
      else
        match strIndexOf (toLowerStr d.content) phrase with
        | none => m
        | some idx => setSR m (mkTier1 phrase d idx))
    m0

/-- The token-intersection loop of `doSearch`, with `candidateIds` as the
accumulator (`none` = JS `null`, before the first token): a token with no
entry empties the set and breaks; so does an empty intersection. -/
def narrowGo (inv : InvIdx) : Option (List String) → List String → List String
  | acc, [] => acc.getD []
  | acc, t :: ts =>
    match invGet inv t with
    | none => []
    | some s =>
      let acc' :=
        match acc with
        | none => s
        | some cs => cs.filter (fun id => decide (id ∈ s))
      if acc' = [] then [] else narrowGo inv (some acc') ts

/-- Candidate narrowing: `none` exactly when the token list is empty
(`candidateIds` stays `null`). -/
def narrowCandidates (inv : InvIdx) : List String → Option (List String)
  | [] => none
  | t :: ts => some (narrowGo inv none (t :: ts))

/-- The candidate id set the fuzzy stage receives: the narrowed set — or all
document ids when the query had no tokens — minus the ids already matched by
an exact phrase. -/
def candidateSetOf (inv : InvIdx) (q : String) (docs : List Doc) (m : List SearchResult) :
    List String :=
  let base :=
    (narrowCandidates inv (tokenize q)).getD (dedupKeepFirst (docs.map (fun d => d.id)))
  base.filter (fun id => !(hasId m id))

/-- `allDocs.get(id)`. -/
def findDoc (docs : List Doc) (id : String) : Option Doc := docs.find? (fun d => d.id == id)

/-- One Fuse result `{item, score?}` — `score` is Fuse's normalized
dissimilarity, `none` when the library omits it (`fr.score ?? 1`). -/
structure FuzzyHit where
  item : Doc
  score : Option ℚ

/-- Fuse.js as an oracle from corpus and query to ranked hits.  Both the
small per-candidate instance and the global incremental instance are runs of
this oracle on their corpus; the `limit: 500` cap and the threshold options
live inside the oracle. -/
def FuzzyOracle : Type := List Doc → String → List FuzzyHit

/-- Stage 3 of `doSearch`: no fuzzy search at all when the candidate set is
empty; a scoped Fuse over the candidate documents when at most 600 of them,
the global Fuse (whose corpus is the whole table) otherwise. -/
def fuzzyResultsOf (fuzzy : FuzzyOracle) (docs : List Doc) (q : String)
    (cands : List String) : List FuzzyHit :=
  if cands = [] then []
  else
    let candidateArray := cands.filterMap (findDoc docs)
    if candidateArray.length ≤ 600 then fuzzy candidateArray q else fuzzy docs q

/-- The tier-2 entry built from one fuzzy hit:
`score = Math.round((fr.score ?? 1) * 100) + 50`, `matches = 0`, excerpt a
window around the first occurrence of the raw query in the content, else the
first 250 characters. -/
def mkTier2 (q : String) (fr : FuzzyHit) : SearchResult :=
  let d := fr.item
  let score : ℤ := jsRound ((fr.score.getD 1) * 100) + 50
  let excerpt :=
    match strIndexOf (toLowerStr d.content) (toLowerStr q) with
    | some pos => makeExcerpt d.content pos q.length
    | none => sliceStr d.content 0 250 ++ (if 250 < d.content.length then "…" else "")
  { id := d.id, title := d.title, excerpt := excerpt, score := score, matchCount := 0,
    content := d.content, url := d.url }

/-- Folding the fuzzy hits into the map, skipping ids already present. -/
def afterTier2 (q : String) (frs : List FuzzyHit) (m1 : List SearchResult) :
    List SearchResult :=
  frs.foldl (fun m fr => if hasId m fr.item.id then m else setSR m (mkTier2 q fr)) m1

/-- The comparator of the final `hitsArr.sort(...)`, as the total preorder it
induces: score ascending, ties by matches descending, remaining ties by
title.  JS `localeCompare` is modelled as comparison of the lowercased
titles (its primary, case-insensitive collation level on ASCII titles). -/
def resLe (a b : SearchResult) : Prop :=
  a.score < b.score ∨ (a.score = b.score ∧
    (b.matchCount < a.matchCount ∨ (a.matchCount = b.matchCount ∧ (toLowerStr a.title) ≤ (toLowerStr b.title))))

instance : DecidableRel resLe := fun a b => by unfold resLe; exact inferInstance

instance : IsTotal SearchResult resLe :=
  ⟨fun a b => by
    unfold resLe
    rcases lt_trichotomy a.score b.score with h | h | h
    · exact Or.inl (Or.inl h)
    · rcases lt_trichotomy a.matchCount b.matchCount with hm | hm | hm
      · exact Or.inr (Or.inr ⟨h.symm, Or.inl hm⟩)
      · rcases le_total (toLowerStr a.title) (toLowerStr b.title) with ht | ht
        · exact Or.inl (Or.inr ⟨h, Or.inr ⟨hm, ht⟩⟩)
        · exact Or.inr (Or.inr ⟨h.symm, Or.inr ⟨hm.symm, ht⟩⟩)
      · exact Or.inl (Or.inr ⟨h, Or.inl hm⟩)
    · exact Or.inr (Or.inl h)⟩

instance : IsTrans SearchResult resLe :=
  ⟨fun a b c hab hbc => by
    unfold resLe at hab hbc ⊢
    rcases hab with h1 | ⟨e1, h1⟩ <;> rcases hbc with h2 | ⟨e2, h2⟩
    · exact Or.inl (h1.trans h2)
    · exact Or.inl (by omega)
    · exact Or.inl (by omega)
    · refine Or.inr ⟨by omega, ?_⟩
      rcases h1 with hm1 | ⟨em1, ht1⟩ <;> rcases h2 with hm2 | ⟨em2, ht2⟩
      · exact Or.inl (by omega)
      · exact Or.inl (by omega)
      · exact Or.inl (by omega)
      · exact Or.inr ⟨by omega, ht1.trans ht2⟩⟩

/-- `hitsArr.sort(comparator)`: a permutation of the array sorted with
respect to the comparator (modelled here by insertion sort — the claims
depend only on sortedness and on the multiset of entries). -/
def sortHits (l : List SearchResult) : List SearchResult := List.insertionSort resLe l

/-- `AIU` — the external language-model call — as an oracle from
(system prompt, user prompt) to the reply text. -/
def AIOracle : Type := String → String → String

/-- The fixed head of the `aiBabble` prompt. -/
def aiPreamble (q : String) : String :=
  "The user asked: " ++ q ++ "\n I am now going to give you the contents of several academic papers that are relevant to this topic. Use ONLY KNOWLEDGE FROM THE FOLLOWING PAPERS to answer the user's question. Every piece of information you get from the papers MUST BE CITED with the title of cited paper in parentheses at the end of the relevant sentences. Thank you very much. BEGIN PAPERS: "

/-- `docsRef.current.get(id)?.content` — string-concatenating the JS
`undefined` of a missing id renders as `"undefined"`. -/
def contentOfId (docs : List Doc) (id : String) : String :=
  ((findDoc docs id).map (fun d => d.content)).getD "undefined"

/-- The `while (count < 3 && count < hitsArr.length)` loop building `aiBabble`. -/
def aiBabbleOf (ai : AIOracle) (docs : List Doc) (q : String)
    (hits : List SearchResult) : String :=
  (hits.take 3).foldl
    (fun acc h =>
      acc ++ "PAPER TITLE: " ++ h.title ++ " PAPER CONTENT: " ++
        ai "" ("Please summarize the key statistics and points in this paper for another AI to be able to quickly read and get as much infomration out of this as possible: " ++ contentOfId docs h.id) ++
        "END PAPER CONTENT. ")
    (aiPreamble q)

/-- The single entry `hitsMap2.set("1", ...)` the `q.includes("?")` branch
replaces the result array with. -/
def aiResult (ai : AIOracle) (docs : List Doc) (q : String) (hits : List SearchResult)
    (h0 : SearchResult) : SearchResult :=
  { id := "AI", title := "AI Summary",
    excerpt := ai "You are a concise, factual assistant. Your job is to summarize and help people learn about papers on Space Biology." (aiBabbleOf ai docs q hits) ++
      "\n Papers Cited: " ++ h0.title,
    score := 0, matchCount := 1, content := "", url := "" }

/-- The result list `doSearch(q)` publishes via `setResults`.  Empty trimmed
query: cleared results, no index access.  Otherwise: the three scoring
passes, the sort, and — when the query contains a `?` — the replacement of
the whole array by one AI-summary entry built from the top hit.  In that
branch with no hit at all, `hitsArr[0].title` throws; the rejected promise
leaves the just-executed `setResults([])` in place, so the observable list
is empty. -/
def rawHits (fuzzy : FuzzyOracle) (docs : List Doc) (inv : InvIdx) (q : String) :
    List SearchResult :=
  let phrase := phraseOf q
  let m0 := afterTier0 phrase docs
  let m1 := afterTier1 phrase docs m0
  let cands := candidateSetOf inv q docs m1
  let frs := fuzzyResultsOf fuzzy docs q cands
  afterTier2 q frs m1

def doSearchResults (fuzzy : FuzzyOracle) (ai : AIOracle) (docs : List Doc)
    (inv : InvIdx) (q0 : String) : List SearchResult :=
  let q := jsTrim q0
  if q = "" then []
  else
    let hitsArr := sortHits (rawHits fuzzy docs inv q)
    if strContains q "?" then
      match hitsArr with
      | [] => []
      | h0 :: _ => [aiResult ai docs q hitsArr h0]
    else hitsArr

/-! ### Lemmas about the map and set primitives -/

theorem hasId_iff {m : List SearchResult} {id : String} :
    hasId m id = true ↔ ∃ r ∈ m, r.id = id := by
  simp [hasId]

theorem hasId_eq_false {m : List SearchResult} {id : String} :
    hasId m id = false ↔ ∀ r ∈ m, r.id ≠ id := by
  rw [← Bool.not_eq_true, hasId_iff]
  push_neg
  rfl

theorem mem_setSR {m : List SearchResult} {x r : SearchResult} (h : r ∈ setSR m x) :
    r ∈ m ∨ r = x := by
  induction m with
  | nil =>
    simp only [setSR, List.mem_singleton] at h
    exact Or.inr h
  | cons e rest ih =>
    simp only [setSR] at h
    split at h
    · rcases List.mem_cons.mp h with h | h
      · exact Or.inr h
      · exact Or.inl (List.mem_cons_of_mem _ h)
    · rcases List.mem_cons.mp h with h | h
      · exact Or.inl (h ▸ List.mem_cons_self _ _)
      · rcases ih h with h | h
        · exact Or.inl (List.mem_cons_of_mem _ h)
        · exact Or.inr h

theorem setSR_fresh {m : List SearchResult} {r : SearchResult}
    (h : hasId m r.id = false) : setSR m r = m ++ [r] := by
  induction m with
  | nil => rfl
  | cons e rest ih =>
    have he : e.id ≠ r.id := hasId_eq_false.mp h e (List.mem_cons_self _ _)
    have hrest : hasId rest r.id = false :=
      hasId_eq_false.mpr fun s hs => hasId_eq_false.mp h s (List.mem_cons_of_mem _ hs)
    simp only [setSR, if_neg he, ih hrest, List.cons_append]

theorem map_id_setSR (m : List SearchResult) (r : SearchResult) :
    (setSR m r).map (fun s => s.id) =
      if hasId m r.id = true then m.map (fun s => s.id)
      else m.map (fun s => s.id) ++ [r.id] := by
  induction m with
  | nil => simp [setSR, hasId]
  | cons e rest ih =>
    by_cases he : e.id = r.id
    · have : hasId (e :: rest) r.id = true := hasId_iff.mpr ⟨e, List.mem_cons_self _ _, he⟩
      simp [setSR, he, this]
    · have hcons : hasId (e :: rest) r.id = hasId rest r.id := by
        simp [hasId, he]
      simp only [setSR, if_neg he, List.map_cons, ih, hcons]
      split <;> simp

theorem setSR_nodup {m : List SearchResult} {r : SearchResult}
    (h : (m.map (fun s => s.id)).Nodup) : ((setSR m r).map (fun s => s.id)).Nodup := by
  rw [map_id_setSR]
  split
  · exact h
  · rename_i hfree
    rw [Bool.not_eq_true] at hfree
    have hnot : r.id ∉ m.map (fun s => s.id) := by
      intro hmem
      rcases List.mem_map.mp hmem with ⟨s, hs, he⟩
      exact hasId_eq_false.mp hfree s hs he
    simp [List.nodup_append, h, hnot]

theorem hasId_append_false {m Δ : List SearchResult} {id : String}
    (h : hasId (m ++ Δ) id = false) : hasId m id = false :=
  hasId_eq_false.mpr fun r hr => hasId_eq_false.mp h r (List.mem_append_left _ hr)

theorem mem_addUnique {l : List String} {x y : String} :
    x ∈ addUnique l y ↔ x ∈ l ∨ x = y := by
  unfold addUnique
  split
  · rename_i hy
    constructor
    · exact Or.inl
    · rintro (h | rfl)
      · exact h
      · exact hy
  · simp

theorem mem_foldl_addUnique (l : List String) :
    ∀ acc x, x ∈ l.foldl addUnique acc ↔ x ∈ acc ∨ x ∈ l := by
  induction l with
  | nil => simp
  | cons y t ih =>
    intro acc x
    rw [List.foldl_cons, ih, mem_addUnique]
    simp only [List.mem_cons]
    tauto

theorem mem_dedupKeepFirst {l : List String} {x : String} :
    x ∈ dedupKeepFirst l ↔ x ∈ l := by
  unfold dedupKeepFirst
  rw [mem_foldl_addUnique]
  simp

/-! ### Lemmas about the inverted index -/

theorem invGet_eq_none_lookup {inv : InvIdx} {t : String} (h : invGet inv t = none) :
    invLookup inv t = [] := by
  unfold invLookup
  rw [h]
  rfl

theorem invGet_eq_some_lookup {inv : InvIdx} {t : String} {s : List String}
    (h : invGet inv t = some s) : invLookup inv t = s := by
  unfold invLookup
  rw [h]
  rfl

theorem invLookup_nil (t : String) : invLookup [] t = [] := rfl

theorem invLookup_cons (te : String) (se : List String) (rest : InvIdx) (t : String) :
    invLookup ((te, se) :: rest) t = if te = t then se else invLookup rest t := by
  by_cases h : te = t <;> simp [invLookup, invGet, h]

theorem mem_invLookup_invInsert (inv : InvIdx) (t id : String) (t' x : String) :
    x ∈ invLookup (invInsert inv t id) t' ↔
      x ∈ invLookup inv t' ∨ (t' = t ∧ x = id) := by
  induction inv with
  | nil =>
    by_cases h : t = t'
    · subst h
      simp [invInsert, invLookup_cons, invLookup_nil, mem_addUnique]
    · have h' : t' ≠ t := fun hh => h hh.symm
      simp [invInsert, invLookup_cons, invLookup_nil, h, h']
  | cons e rest ih =>
    obtain ⟨te, se⟩ := e
    by_cases hte : te = t
    · subst hte
      by_cases ht' : te = t'
      · subst ht'
        simp [invInsert, invLookup_cons, mem_addUnique]
      · have ht'' : t' ≠ te := fun hh => ht' hh.symm
        simp [invInsert, invLookup_cons, ht', ht'']
    · by_cases ht' : te = t'
      · subst ht'
        have : ¬ (te = t) := hte
        simp [invInsert, invLookup_cons, hte, this]
      · simp [invInsert, invLookup_cons, hte, ht', ih]

theorem mem_invLookup_foldInsert (ts : List String) :
    ∀ (inv : InvIdx) (id t' x : String),
      x ∈ invLookup (ts.foldl (fun i t => invInsert i t id) inv) t' ↔
        x ∈ invLookup inv t' ∨ (t' ∈ ts ∧ x = id) := by
  induction ts with
  | nil => simp
  | cons t ts ih =>
    intro inv id t' x
    rw [List.foldl_cons, ih, mem_invLookup_invInsert]
    simp only [List.mem_cons]
    tauto

/-! ### Lemmas about the indexing run -/

theorem setDoc_fresh {l : List Doc} {d : Doc} (h : d.id ∉ l.map (fun e => e.id)) :
    setDoc l d = l ++ [d] := by
  induction l with
  | nil => rfl
  | cons e rest ih =>
    simp only [List.map_cons, List.mem_cons, not_or] at h
    obtain ⟨h1, h2⟩ := h
    simp only [setDoc, if_neg (fun hh : e.id = d.id => h1 hh.symm), ih h2,
      List.cons_append]

theorem indexDoc_docs {st : IndexState} {d : Doc}
    (h : d.id ∉ st.docs.map (fun e => e.id)) : (indexDoc st d).docs = st.docs ++ [d] := by
  simp only [indexDoc]
  exact setDoc_fresh h

/-- The invariant of claim C6: an id is in a token's posting set exactly when
a document of the table with that id has the token among its title/content
tokens. -/
def invariantHolds (st : IndexState) : Prop :=
  ∀ t id, id ∈ invLookup st.inverted t ↔ ∃ d ∈ st.docs, d.id = id ∧ t ∈ docTokens d

theorem invariant_initState : invariantHolds initState := by
  intro t id
  simp [initState, invLookup_nil]

theorem invariant_indexDoc {st : IndexState} {d : Doc}
    (hfresh : d.id ∉ st.docs.map (fun e => e.id)) (h : invariantHolds st) :
    invariantHolds (indexDoc st d) := by
  intro t id
  have hinv : id ∈ invLookup (indexDoc st d).inverted t ↔
      id ∈ invLookup st.inverted t ∨ (t ∈ docTokens d ∧ id = d.id) :=
    mem_invLookup_foldInsert (docTokens d) st.inverted d.id t id
  rw [hinv, indexDoc_docs hfresh, h t id]
  constructor
  · rintro (⟨d', hd', he, ht⟩ | ⟨ht, rfl⟩)
    · exact ⟨d', List.mem_append_left _ hd', he, ht⟩
    · exact ⟨d, List.mem_append_right _ (List.mem_singleton_self d), rfl, ht⟩
  · rintro ⟨d', hd', he, ht⟩
    rcases List.mem_append.mp hd' with hd' | hd'
    · exact Or.inl ⟨d', hd', he, ht⟩
    · rw [List.mem_singleton] at hd'
      subst hd'
      exact Or.inr ⟨ht, he.symm⟩

theorem step_docs (net : Network) (base : String) (st : IndexState) (p : String × String)
    (h : p.1 ∉ st.docs.map (fun e => e.id)) :
    (step net base st p).docs = st.docs ++ [mkDoc net base p.1 p.2] := by
  simp only [step]
  exact indexDoc_docs h

theorem invariantHolds_step (net : Network) (base : String) (st : IndexState)
    (p : String × String) (h : invariantHolds (indexDoc st (mkDoc net base p.1 p.2))) :
    invariantHolds (step net base st p) := h

theorem foldl_step_docs (net : Network) (base : String) :
    ∀ (ps : List (String × String)) (st : IndexState),
      (∀ p ∈ ps, p.1 ∉ st.docs.map (fun e => e.id)) → (ps.map Prod.fst).Nodup →
      (ps.foldl (step net base) st).docs =
        st.docs ++ ps.map (fun p => mkDoc net base p.1 p.2) := by
  intro ps
  induction ps with
  | nil => intro st _ _; simp
  | cons p rest ih =>
    intro st hfresh hnd
    obtain ⟨f, u⟩ := p
    have hf : f ∉ st.docs.map (fun e => e.id) := hfresh (f, u) (List.mem_cons_self _ _)
    have hstep : (step net base st (f, u)).docs = st.docs ++ [mkDoc net base f u] :=
      step_docs net base st (f, u) hf
    have hndr : (rest.map Prod.fst).Nodup := (List.nodup_cons.mp hnd).2
    have hfr : ∀ p' ∈ rest, p'.1 ∉ (step net base st (f, u)).docs.map (fun e => e.id) := by
      intro p' hp' hmem
      rw [hstep] at hmem
      simp only [List.map_append, List.mem_append, List.map_cons, List.map_nil,
        List.mem_singleton] at hmem
      rcases hmem with hmem | hmem
      · exact hfresh p' (List.mem_cons_of_mem _ hp') hmem
      · have hpf : p'.1 = f := by simpa [mkDoc] using hmem
        have hmf : p'.1 ∈ rest.map Prod.fst := List.mem_map_of_mem Prod.fst hp'
        rw [hpf] at hmf
        exact (List.nodup_cons.mp hnd).1 hmf
    rw [List.foldl_cons, ih _ hfr hndr, hstep]
    simp

theorem foldl_step_done (net : Network) (base : String) :
    ∀ (ps : List (String × String)) (st : IndexState),
      (ps.foldl (step net base) st).done = st.done + ps.length := by
  intro ps
  induction ps with
  | nil => intro st; simp
  | cons p rest ih =>
    intro st
    rw [List.foldl_cons, ih]
    have hd : (step net base st p).done = st.done + 1 := rfl
    rw [hd, List.length_cons]
    omega

theorem invariant_foldl (net : Network) (base : String) :
    ∀ (ps : List (String × String)) (st : IndexState), invariantHolds st →
      (∀ p ∈ ps, p.1 ∉ st.docs.map (fun e => e.id)) → (ps.map Prod.fst).Nodup →
      invariantHolds (ps.foldl (step net base) st) := by
  intro ps
  induction ps with
  | nil => intro st h _ _; exact h
  | cons p rest ih =>
    intro st h hfresh hnd
    obtain ⟨f, u⟩ := p
    have hf : f ∉ st.docs.map (fun e => e.id) := hfresh (f, u) (List.mem_cons_self _ _)
    have hf' : (mkDoc net base f u).id ∉ st.docs.map (fun e => e.id) := hf
    have hstep : invariantHolds (step net base st (f, u)) :=
      invariantHolds_step net base st (f, u) (invariant_indexDoc hf' h)
    have hstepdocs : (step net base st (f, u)).docs = st.docs ++ [mkDoc net base f u] :=
      step_docs net base st (f, u) hf
    have hndr : (rest.map Prod.fst).Nodup := (List.nodup_cons.mp hnd).2
    have hfr : ∀ p' ∈ rest, p'.1 ∉ (step net base st (f, u)).docs.map (fun e => e.id) := by
      intro p' hp' hmem
      rw [hstepdocs] at hmem
      simp only [List.map_append, List.mem_append, List.map_cons, List.map_nil,
        List.mem_singleton] at hmem
      rcases hmem with hmem | hmem
      · exact hfresh p' (List.mem_cons_of_mem _ hp') hmem
      · have hpf : p'.1 = f := by simpa [mkDoc] using hmem
        have hmf : p'.1 ∈ rest.map Prod.fst := List.mem_map_of_mem Prod.fst hp'
        rw [hpf] at hmf
        exact (List.nodup_cons.mp hnd).1 hmf
    rw [List.foldl_cons]
    exact ih _ hstep hfr hndr

theorem zip_map_fst_sublist : ∀ (a b : List String), ((a.zip b).map Prod.fst).Sublist a := by
  intro a
  induction a with
  | nil => intro b; simp
  | cons x a' ih =>
    intro b
    cases b with
    | nil => simp
    | cons y b' =>
      simpa using (ih b').cons₂ x

theorem zip_take_eq : ∀ (a b : List String) (k : ℕ),
    (a.take k).zip (b.take k) = (a.zip b).take k := by
  intro a
  induction a with
  | nil => intro b k; simp
  | cons x a' ih =>
    intro b k
    cases b with
    | nil => simp
    | cons y b' =>
      cases k with
      | zero => simp
      | succ n => simp [ih b' n]

/-! ### Lemmas about the three scoring passes -/

/-- Skeleton shared by the tier-1 and tier-2 passes: a left fold whose every
step either keeps the map unchanged or appends one entry with a fresh id. -/
theorem foldl_fresh_extends {α : Type} (f : List SearchResult → α → List SearchResult)
    (P : α → SearchResult → Prop)
    (hf : ∀ m x, f m x = m ∨ ∃ r, hasId m r.id = false ∧ f m x = m ++ [r] ∧ P x r) :
    ∀ (l : List α) (acc : List SearchResult),
      ∃ Δ, l.foldl f acc = acc ++ Δ ∧
        (∀ r ∈ Δ, hasId acc r.id = false ∧ ∃ x ∈ l, P x r) ∧
        ((acc.map (fun s => s.id)).Nodup → ((acc ++ Δ).map (fun s => s.id)).Nodup) := by
  intro l
  induction l with
  | nil =>
    intro acc
    exact ⟨[], by simp, by simp, by simp⟩
  | cons x rest ih =>
    intro acc
    rcases hf acc x with hx | ⟨r, hfr, hx, hP⟩
    · obtain ⟨Δ, h1, h2, h3⟩ := ih acc
      refine ⟨Δ, ?_, ?_, h3⟩
      · rw [List.foldl_cons, hx, h1]
      · intro r hr
        obtain ⟨ha, x', hx', hP'⟩ := h2 r hr
        exact ⟨ha, x', List.mem_cons_of_mem _ hx', hP'⟩
    · obtain ⟨Δ, h1, h2, h3⟩ := ih (acc ++ [r])
      have hri : r.id ∉ acc.map (fun s => s.id) := by
        intro hmem
        rcases List.mem_map.mp hmem with ⟨s, hs, he⟩
        exact hasId_eq_false.mp hfr s hs he
      refine ⟨r :: Δ, ?_, ?_, ?_⟩
      · rw [List.foldl_cons, hx, h1, List.append_assoc]
        rfl
      · intro r' hr'
        rcases List.mem_cons.mp hr' with rfl | hr'
        · exact ⟨hfr, x, List.mem_cons_self _ _, hP⟩
        · obtain ⟨ha, x', hx', hP'⟩ := h2 r' hr'
          exact ⟨hasId_append_false ha, x', List.mem_cons_of_mem _ hx', hP'⟩
      · intro hnd
        have hnd' : ((acc ++ [r]).map (fun s => s.id)).Nodup := by
          simp [List.nodup_append, hnd, hri]
        have h4 := h3 hnd'
        rwa [List.append_assoc] at h4

theorem afterTier1_extends (phrase : String) (docs : List Doc) (m0 : List SearchResult) :
    ∃ Δ, afterTier1 phrase docs m0 = m0 ++ Δ ∧
      (∀ r ∈ Δ, hasId m0 r.id = false ∧
        ∃ d ∈ docs, ∃ idx, strIndexOf (toLowerStr d.content) phrase = some idx ∧
          r = mkTier1 phrase d idx) ∧
      ((m0.map (fun s => s.id)).Nodup →
        ((afterTier1 phrase docs m0).map (fun s => s.id)).Nodup) := by
  obtain ⟨Δ, h1, h2, h3⟩ :=
    foldl_fresh_extends
      (fun m d =>
        if hasId m d.id then m
        else
          match strIndexOf (toLowerStr d.content) phrase with
          | none => m
          | some idx => setSR m (mkTier1 phrase d idx))
      (fun d r => ∃ idx, strIndexOf (toLowerStr d.content) phrase = some idx ∧
        r = mkTier1 phrase d idx)
      (by
        intro m d
        by_cases hh : hasId m d.id
        · exact Or.inl (by simp [hh])
        · rcases hidx : strIndexOf (toLowerStr d.content) phrase with _ | idx
          · exact Or.inl (by simp [hh, hidx])
          · refine Or.inr ⟨mkTier1 phrase d idx, ?_, ?_, idx, hidx, rfl⟩
            · simpa [mkTier1] using (Bool.not_eq_true _).mp hh
            · have hfr : hasId m (mkTier1 phrase d idx).id = false := by
                simpa [mkTier1] using (Bool.not_eq_true _).mp hh
              simp [hh, hidx, setSR_fresh hfr])
      docs m0
  refine ⟨Δ, h1, h2, fun hnd => ?_⟩
  have he : afterTier1 phrase docs m0 = m0 ++ Δ := h1
  rw [he]
  exact h3 hnd

theorem afterTier2_extends (q : String) (frs : List FuzzyHit) (m1 : List SearchResult) :
    ∃ Δ, afterTier2 q frs m1 = m1 ++ Δ ∧
      (∀ r ∈ Δ, hasId m1 r.id = false ∧ ∃ fr ∈ frs, r = mkTier2 q fr) ∧
      ((m1.map (fun s => s.id)).Nodup →
        ((afterTier2 q frs m1).map (fun s => s.id)).Nodup) := by
  obtain ⟨Δ, h1, h2, h3⟩ :=
    foldl_fresh_extends
      (fun m fr => if hasId m fr.item.id then m else setSR m (mkTier2 q fr))
      (fun fr r => r = mkTier2 q fr)
      (by
        intro m fr
        by_cases hh : hasId m fr.item.id
        · exact Or.inl (by simp [hh])
        · refine Or.inr ⟨mkTier2 q fr, ?_, ?_, rfl⟩
          · simpa [mkTier2] using (Bool.not_eq_true _).mp hh
          · have hfr : hasId m (mkTier2 q fr).id = false := by
              simpa [mkTier2] using (Bool.not_eq_true _).mp hh
            simp [hh, setSR_fresh hfr])
      frs m1
  refine ⟨Δ, h1, h2, fun hnd => ?_⟩
  have he : afterTier2 q frs m1 = m1 ++ Δ := h1
  rw [he]
  exact h3 hnd

theorem mem_afterTier0 {phrase : String} {docs : List Doc} {r : SearchResult}
    (h : r ∈ afterTier0 phrase docs) :
    ∃ d ∈ docs, strContains (toLowerStr d.title) phrase = true ∧ r = mkTier0 phrase d := by
  suffices H : ∀ (ds : List Doc) (acc : List SearchResult),
      r ∈ ds.foldl
        (fun m d => if strContains (toLowerStr d.title) phrase then setSR m (mkTier0 phrase d) else m)
        acc →
      r ∈ acc ∨ ∃ d ∈ ds, strContains (toLowerStr d.title) phrase = true ∧ r = mkTier0 phrase d by
    rcases H docs [] h with hh | hh
    · cases hh
    · exact hh
  intro ds
  induction ds with
  | nil => intro acc hacc; exact Or.inl hacc
  | cons d rest ih =>
    intro acc hacc
    rw [List.foldl_cons] at hacc
    by_cases hd : strContains (toLowerStr d.title) phrase
    · rw [if_pos hd] at hacc
      rcases ih _ hacc with hh | ⟨d', hd', hc, he⟩
      · rcases mem_setSR hh with hh | hh
        · exact Or.inl hh
        · exact Or.inr ⟨d, List.mem_cons_self _ _, hd, hh⟩
      · exact Or.inr ⟨d', List.mem_cons_of_mem _ hd', hc, he⟩
    · rw [if_neg hd] at hacc
      rcases ih _ hacc with hh | ⟨d', hd', hc, he⟩
      · exact Or.inl hh
      · exact Or.inr ⟨d', List.mem_cons_of_mem _ hd', hc, he⟩

theorem afterTier0_nodup (phrase : String) (docs : List Doc) :
    ((afterTier0 phrase docs).map (fun s => s.id)).Nodup := by
  suffices H : ∀ (ds : List Doc) (acc : List SearchResult), (acc.map (fun s => s.id)).Nodup →
      ((ds.foldl
        (fun m d => if strContains (toLowerStr d.title) phrase then setSR m (mkTier0 phrase d) else m)
        acc).map (fun s => s.id)).Nodup from H docs [] (by simp)
  intro ds
  induction ds with
  | nil => intro acc hacc; exact hacc
  | cons d rest ih =>
    intro acc hacc
    rw [List.foldl_cons]
    by_cases hd : strContains (toLowerStr d.title) phrase
    · rw [if_pos hd]
      exact ih _ (setSR_nodup hacc)
    · rw [if_neg hd]
      exact ih _ hacc

theorem afterTier0_eq_nil {phrase : String} {docs : List Doc}
    (h : ∀ d ∈ docs, strContains (toLowerStr d.title) phrase = false) :
    afterTier0 phrase docs = [] := by
  unfold afterTier0
  induction docs with
  | nil => rfl
  | cons d rest ih =>
    rw [List.foldl_cons, if_neg (by simp [h d (List.mem_cons_self _ _)])]
    exact ih fun d' hd' => h d' (List.mem_cons_of_mem _ hd')

theorem afterTier1_eq_self {phrase : String} {docs : List Doc} {m0 : List SearchResult}
    (h : ∀ d ∈ docs, strIndexOf (toLowerStr d.content) phrase = none) :
    afterTier1 phrase docs m0 = m0 := by
  unfold afterTier1
  induction docs generalizing m0 with
  | nil => rfl
  | cons d rest ih =>
    rw [List.foldl_cons]
    have hd := h d (List.mem_cons_self _ _)
    have hstep : (if hasId m0 d.id then m0
        else
          match strIndexOf (toLowerStr d.content) phrase with
          | none => m0
          | some idx => setSR m0 (mkTier1 phrase d idx)) = m0 := by
      split
      · rfl
      · rw [hd]
    rw [hstep]
    exact ih fun d' hd' => h d' (List.mem_cons_of_mem _ hd')

theorem sortHits_perm (l : List SearchResult) : (sortHits l).Perm l :=
  List.perm_insertionSort resLe l

theorem sortHits_sorted (l : List SearchResult) : List.Sorted resLe (sortHits l) :=
  List.sorted_insertionSort resLe l

/-! ### Claim C4 — per-document fetch fallback -/

/-- Claim C4 (amended), the actual fallback ladder of `next()`: the encoded
path is fetched first and its body returned on success; the raw-identifier
retry happens only when the first attempt returns a non-success status; if
that retry returns non-success or throws, the content is empty; and a
*thrown* first attempt yields empty content with no retry at all. -/
theorem C4_fetch_fallback_amended (net : Network) (base fn : String) :
    (∀ t, net (base ++ encodeURIComponent fn) = FetchOutcome.ok t →
      fetchContent net base fn = t) ∧
    (∀ t, net (base ++ encodeURIComponent fn) = FetchOutcome.notOk →
      net (base ++ fn) = FetchOutcome.ok t → fetchContent net base fn = t) ∧
    (net (base ++ encodeURIComponent fn) = FetchOutcome.notOk →
      (net (base ++ fn) = FetchOutcome.notOk ∨ net (base ++ fn) = FetchOutcome.threw) →
      fetchContent net base fn = "") ∧
    (net (base ++ encodeURIComponent fn) = FetchOutcome.threw →
      fetchContent net base fn = "") := by
  refine ⟨?_, ?_, ?_, ?_⟩
  · intro t h
    unfold fetchContent
    rw [h]
  · intro t h1 h2
    unfold fetchContent
    rw [h1, h2]
  · intro h1 h2
    unfold fetchContent
    rw [h1]
    rcases h2 with h2 | h2 <;> rw [h2]
  · intro h
    unfold fetchContent
    rw [h]

/-- Network of the C4 counterexample: the raw path `b/x y` answers with
`"hello"`, every other URL (in particular the encoded `b/x%20y`) throws. -/
def netC4 : Network := fun u => if u = "b/x y" then FetchOutcome.ok "hello" else FetchOutcome.threw

/-- Claim C4 counterexample: the first (percent-encoded) attempt throws and
the raw-identifier fetch would succeed with `"hello"`, yet the document gets
empty content — the claimed retry after a thrown first attempt does not
happen. -/
theorem C4_counterexample :
    fetchContent netC4 "b/" "x y" = "" ∧
    netC4 ("b/" ++ "x y") = FetchOutcome.ok "hello" ∧ ("" : String) ≠ "hello" := by
  refine ⟨?_, ?_, ?_⟩ <;> decide

/-- Closed instance exercising `C4_fetch_fallback_amended` at a concrete
network: a not-ok first attempt followed by a successful raw retry. -/
def netC4W : Network := fun u =>
  if u = "b/a b" then FetchOutcome.ok "raw body"
  else if u = "b/a%20b" then FetchOutcome.notOk else FetchOutcome.threw

theorem C4_witness :
    netC4W ("b/" ++ encodeURIComponent "a b") = FetchOutcome.notOk ∧
    netC4W ("b/" ++ "a b") = FetchOutcome.ok "raw body" ∧
    fetchContent netC4W "b/" "a b" = "raw body" :=
  ⟨by decide, by decide,
    (C4_fetch_fallback_amended netC4W "b/" "a b").2.1 "raw body" (by decide) (by decide)⟩

/-! ### Claim C5 — resilience of the indexing run -/

/-- Network that fails every fetch. -/
def netC5 : Network := fun _ => FetchOutcome.threw

/-- Claim C5 counterexample: a manifest of one identifier run against an
empty secondary URL manifest ends with zero documents and `done = 0`, not
with one document and `done = 1` — `next()` stops as soon as `urlqueue` is
empty. -/
theorem C5_counterexample :
    ¬ ((runIndex netC5 "b/" ["a.txt"] []).docs.length =
          (["a.txt"] : List String).length ∧
       (runIndex netC5 "b/" ["a.txt"] []).done = (["a.txt"] : List String).length) := by
  decide

/-- Claim C5 (amended): when the identifiers are distinct and the URL
manifest is at least as long as the document manifest, the run ends with
exactly one table entry per manifest identifier — failed fetches included,
with whatever `fetchContent` produced (empty on double failure) — and the
`done` counter reaches the manifest length. -/
theorem C5_index_resilient_amended (net : Network) (base : String)
    (manifest urls : List String) (hnd : manifest.Nodup)
    (hlen : manifest.length ≤ urls.length) :
    (runIndex net base manifest urls).docs =
      (manifest.zip urls).map (fun p => mkDoc net base p.1 p.2) ∧
    (runIndex net base manifest urls).docs.length = manifest.length ∧
    (runIndex net base manifest urls).done = manifest.length ∧
    ∀ d ∈ (runIndex net base manifest urls).docs,
      d.content = fetchContent net base d.id := by
  have hfst : (manifest.zip urls).map Prod.fst = manifest :=
    List.map_fst_zip manifest urls hlen
  have hznd : ((manifest.zip urls).map Prod.fst).Nodup := by rw [hfst]; exact hnd
  have hdocs : (runIndex net base manifest urls).docs =
      (manifest.zip urls).map (fun p => mkDoc net base p.1 p.2) := by
    have h := foldl_step_docs net base (manifest.zip urls) initState
      (by intro p _ hp; simp [initState] at hp) hznd
    simpa [runIndex, initState] using h
  have hz : (manifest.zip urls).length = manifest.length := by
    rw [List.length_zip]
    omega
  refine ⟨hdocs, ?_, ?_, ?_⟩
  · rw [hdocs, List.length_map, hz]
  · have h := foldl_step_done net base (manifest.zip urls) initState
    simpa [runIndex, initState, hz] using h
  · intro d hd
    rw [hdocs] at hd
    rcases List.mem_map.mp hd with ⟨p, _, rfl⟩
    rfl

/-- Network of the C5 witness: one fetchable document, one that fails on
both attempts. -/
def netC5W : Network := fun u =>
  if u = "b/a.txt" then FetchOutcome.ok "alpha beta" else FetchOutcome.notOk

theorem C5_witness :
    (["a.txt", "broken.txt"] : List String).Nodup ∧
    (["a.txt", "broken.txt"] : List String).length ≤ (["u", "v"] : List String).length ∧
    ((runIndex netC5W "b/" ["a.txt", "broken.txt"] ["u", "v"]).docs =
        ((["a.txt", "broken.txt"] : List String).zip ["u", "v"]).map
          (fun p => mkDoc netC5W "b/" p.1 p.2) ∧
      (runIndex netC5W "b/" ["a.txt", "broken.txt"] ["u", "v"]).docs.length =
        (["a.txt", "broken.txt"] : List String).length ∧
      (runIndex netC5W "b/" ["a.txt", "broken.txt"] ["u", "v"]).done =
        (["a.txt", "broken.txt"] : List String).length ∧
      ∀ d ∈ (runIndex netC5W "b/" ["a.txt", "broken.txt"] ["u", "v"]).docs,
        d.content = fetchContent netC5W "b/" d.id) :=
  ⟨by decide, by decide,
    C5_index_resilient_amended netC5W "b/" ["a.txt", "broken.txt"] ["u", "v"]
      (by decide) (by decide)⟩

/-! ### Claim C9 — progress counter -/

/-- Status of the indexer state machine. -/
inductive Status
  | idle
  | indexing
  | ready
  | error
deriving Repr, DecidableEq

/-- One observation of the progress counters together with the status at
that moment. -/
structure ProgObs where
  done : ℕ
  total : ℕ
  status : Status
deriving Repr, DecidableEq

instance : Inhabited ProgObs := ⟨⟨0, 0, Status.idle⟩⟩

/-- The completion observations of the worker phase with `r` queue entries
left: each completed document runs `done++; setProgress(...)` (completions
are serialized by the single-threaded event loop), and after the last one
`Promise.all` resolves and `setStatus("ready")` runs. -/
def workerObs (total : ℕ) : ℕ → ℕ → List ProgObs
  | d, 0 => [⟨d, total, Status.ready⟩]
  | d, r + 1 => ⟨d + 1, total, Status.indexing⟩ :: workerObs total (d + 1) r

/-- The observation sequence of one `fetchManifestAndIndex` run in which the
manifest and URL-manifest fetches succeed: the initial idle state, the
`setStatus("indexing")` at entry, the `setProgress(0, manifest.length)`
after the manifest arrives, then one observation per completed document (the
zipped queues hold `min N U` entries), and the final `ready`. -/
def runTrace (manifest urls : List String) : List ProgObs :=
  ⟨0, 0, Status.idle⟩ :: ⟨0, 0, Status.indexing⟩ ::
    ⟨0, manifest.length, Status.indexing⟩ ::
    workerObs manifest.length 0 (manifest.zip urls).length

theorem workerObs_bounds (total : ℕ) :
    ∀ r d, ∀ o ∈ workerObs total d r, o.done ≤ d + r ∧ o.total = total := by
  intro r
  induction r with
  | zero =>
    intro d o ho
    rw [workerObs, List.mem_singleton] at ho
    subst ho
    exact ⟨Nat.le_refl _, rfl⟩
  | succ r ih =>
    intro d o ho
    rw [workerObs] at ho
    rcases List.mem_cons.mp ho with rfl | ho
    · exact ⟨by show d + 1 ≤ d + (r + 1); omega, rfl⟩
    · obtain ⟨h1, h2⟩ := ih (d + 1) o ho
      exact ⟨by omega, h2⟩

theorem workerObs_chain (total : ℕ) :
    ∀ r d, List.Chain' (fun a b => a.done ≤ b.done) (workerObs total d r) := by
  intro r
  induction r with
  | zero => intro d; simp [workerObs]
  | succ r ih =>
    intro d
    rw [workerObs]
    refine (ih (d + 1)).cons' ?_
    intro o ho
    have hh : ∀ rr dd, ∀ o' ∈ (workerObs total dd rr).head?, dd ≤ o'.done := by
      intro rr
      cases rr with
      | zero => intro dd o' ho'; simp [workerObs] at ho'; subst ho'; exact Nat.le_refl _
      | succ rr =>
        intro dd o' ho'
        simp [workerObs] at ho'
        subst ho'
        show dd ≤ dd + 1
        omega
    have hdo := hh r (d + 1) o ho
    show d + 1 ≤ o.done
    omega

theorem workerObs_statusLast (total : ℕ) :
    ∀ r d, ((workerObs total d r).getD r default).status = Status.ready := by
  intro r
  induction r with
  | zero => intro d; rfl
  | succ r ih =>
    intro d
    rw [workerObs, List.getD_cons_succ]
    exact ih (d + 1)

theorem workerObs_length (total : ℕ) :
    ∀ r d, (workerObs total d r).length = r + 1 := by
  intro r
  induction r with
  | zero => intro d; rfl
  | succ r ih =>
    intro d
    rw [workerObs, List.length_cons, ih (d + 1)]

/-- Claim C9: along every (successful-fetch) indexing run, `done` never
decreases between consecutive progress observations, never exceeds `total`,
and from any observation with `done = total` there is a later observation
whose status is `ready` (the run always ends `ready`). -/
theorem C9_progress_monotone (manifest urls : List String) :
    List.Chain' (fun a b => a.done ≤ b.done) (runTrace manifest urls) ∧
    (∀ o ∈ runTrace manifest urls, o.done ≤ o.total) ∧
    (∀ i, i < (runTrace manifest urls).length →
      ((runTrace manifest urls).getD i default).done =
        ((runTrace manifest urls).getD i default).total →
      ∃ j, i ≤ j ∧ j < (runTrace manifest urls).length ∧
        ((runTrace manifest urls).getD j default).status = Status.ready) := by
  have hk : (manifest.zip urls).length ≤ manifest.length := by
    rw [List.length_zip]
    omega
  refine ⟨?_, ?_, ?_⟩
  · unfold runTrace
    refine List.Chain'.cons' (List.Chain'.cons' (List.Chain'.cons' ?_ ?_) ?_) ?_
    · exact workerObs_chain manifest.length _ 0
    · intro o _
      exact Nat.zero_le _
    · intro o ho
      simp at ho
      subst ho
      exact Nat.le_refl _
    · intro o ho
      simp at ho
      subst ho
      exact Nat.le_refl _
  · intro o ho
    unfold runTrace at ho
    rcases List.mem_cons.mp ho with rfl | ho
    · exact Nat.le_refl _
    rcases List.mem_cons.mp ho with rfl | ho
    · exact Nat.le_refl _
    rcases List.mem_cons.mp ho with rfl | ho
    · exact Nat.zero_le _
    · obtain ⟨h1, h2⟩ := workerObs_bounds manifest.length _ 0 o ho
      rw [h2]
      omega
  · intro i hi _
    refine ⟨(manifest.zip urls).length + 3, ?_, ?_, ?_⟩
    · unfold runTrace at hi
      simp only [List.length_cons, workerObs_length] at hi
      omega
    · unfold runTrace
      simp only [List.length_cons, workerObs_length]
      omega
    · show ((runTrace manifest urls).getD ((manifest.zip urls).length + 3) default).status =
        Status.ready
      unfold runTrace
      rw [show (manifest.zip urls).length + 3 = ((manifest.zip urls).length + 2) + 1 from rfl,
        List.getD_cons_succ,
        show (manifest.zip urls).length + 2 = ((manifest.zip urls).length + 1) + 1 from rfl,
        List.getD_cons_succ,
        show (manifest.zip urls).length + 1 = (manifest.zip urls).length + 1 from rfl,
        List.getD_cons_succ]
      exact workerObs_statusLast manifest.length _ 0


/-! ### Claim C2 — final ordering of the result list -/

/-- The three-level adjacent ordering claim C2 asserts of the returned list:
score non-decreasing; at equal score, matches non-increasing; at equal score
and matches, lowercased titles non-decreasing. -/
def orderedAfter (a b : SearchResult) : Prop :=
  a.score ≤ b.score ∧ (a.score = b.score → b.matchCount ≤ a.matchCount) ∧
    (a.score = b.score → a.matchCount = b.matchCount →
      (toLowerStr a.title) ≤ (toLowerStr b.title))

theorem resLe_orderedAfter {a b : SearchResult} (h : resLe a b) : orderedAfter a b := by
  rcases h with h | ⟨e, h⟩
  · exact ⟨le_of_lt h, fun e => absurd e (by omega), fun e _ => absurd e (by omega)⟩
  · rcases h with hm | ⟨em, ht⟩
    · exact ⟨le_of_eq e, fun _ => le_of_lt hm, fun _ em2 => absurd em2 (by omega)⟩
    · exact ⟨le_of_eq e, fun _ => le_of_eq em.symm, fun _ _ => ht⟩

theorem chain'_sortHits (l : List SearchResult) :
    List.Chain' orderedAfter (sortHits l) :=
  List.Chain'.imp (fun _ _ h => resLe_orderedAfter h)
    (List.Pairwise.chain' (sortHits_sorted l))

/-- Claim C2: every list `doSearch` returns is ordered by ascending score;
between adjacent equal-score entries `matches` is non-increasing; between
adjacent equal-score equal-matches entries the (lowercased) titles are
non-decreasing. -/
theorem C2_result_ordering (fuzzy : FuzzyOracle) (ai : AIOracle) (docs : List Doc)
    (inv : InvIdx) (q0 : String) :
    List.Chain' orderedAfter (doSearchResults fuzzy ai docs inv q0) := by
  unfold doSearchResults
  by_cases hq : (jsTrim q0) = ""
  · simp only [if_pos hq]
    exact List.chain'_nil
  · simp only [if_neg hq]
    by_cases hqm : strContains (jsTrim q0) "?"
    · simp only [if_pos hqm]
      split
      · exact List.chain'_nil
      · exact List.chain'_singleton _
    · simp only [if_neg hqm]
      exact chain'_sortHits _

/-! ### Claim C3 — the tier-2 score offset -/

theorem mkTier2_score (q : String) (fr : FuzzyHit) :
    (mkTier2 q fr).score = jsRound ((fr.score.getD 1) * 100) + 50 := rfl

theorem mkTier2_score_ge (q : String) (fr : FuzzyHit)
    (h : ∀ x : ℚ, fr.score = some x → 0 ≤ x) : 50 ≤ (mkTier2 q fr).score := by
  rw [mkTier2_score]
  have hge : (0 : ℚ) ≤ fr.score.getD 1 := by
    rcases hs : fr.score with _ | x
    · norm_num [Option.getD_none]
    · rw [Option.getD_some]
      exact h x hs
  have h2 : (0 : ℚ) ≤ (fr.score.getD 1) * 100 + 1 / 2 := by
    have hm := mul_nonneg hge (by norm_num : (0 : ℚ) ≤ 100)
    linarith
  have h3 : 0 ≤ jsRound ((fr.score.getD 1) * 100) := by
    unfold jsRound
    exact Int.floor_nonneg.mpr h2
  omega

/-- Claim C3: every tier-2 entry added by the fuzzy pass carries
`score = Math.round(fuzzyScore * 100) + 50`, which is at least 50 and hence
strictly above the tier-1 score 10 and the tier-0 score 0. -/
theorem C3_fuzzy_score_offset (q : String) (frs : List FuzzyHit) (m1 : List SearchResult)
    (hsc : ∀ fr ∈ frs, ∀ x : ℚ, fr.score = some x → 0 ≤ x) :
    ∀ r ∈ afterTier2 q frs m1, hasId m1 r.id = false →
      (∃ fr ∈ frs, r.score = jsRound ((fr.score.getD 1) * 100) + 50) ∧
      50 ≤ r.score ∧ 10 < r.score ∧ 0 < r.score := by
  intro r hr hfree
  obtain ⟨Δ, h1, h2, _⟩ := afterTier2_extends q frs m1
  rw [h1] at hr
  rcases List.mem_append.mp hr with hr | hr
  · have hh : hasId m1 r.id = true := hasId_iff.mpr ⟨r, hr, rfl⟩
    rw [hh] at hfree
    simp at hfree
  · obtain ⟨_, fr, hfr, rfl⟩ := h2 r hr
    have hge := mkTier2_score_ge q fr (hsc fr hfr)
    exact ⟨⟨fr, hfr, mkTier2_score q fr⟩, hge, by omega, by omega⟩

/-- The document and fuzzy hit of the C3 witness. -/
def docC3 : Doc := ⟨"a.txt", "a", "alpha beta", "u"⟩

def frsC3 : List FuzzyHit := [⟨docC3, some 0⟩]

theorem C3_witness :
    (∀ fr ∈ frsC3, ∀ x : ℚ, fr.score = some x → 0 ≤ x) ∧
    ∀ r ∈ afterTier2 "gamma" frsC3 [], hasId ([] : List SearchResult) r.id = false →
      (∃ fr ∈ frsC3, r.score = jsRound ((fr.score.getD 1) * 100) + 50) ∧
      50 ≤ r.score ∧ 10 < r.score ∧ 0 < r.score := by
  have hsc : ∀ fr ∈ frsC3, ∀ x : ℚ, fr.score = some x → 0 ≤ x := by
    intro fr hfr x hx
    have hfr' : fr = (⟨docC3, some 0⟩ : FuzzyHit) := by
      simpa [frsC3] using hfr
    subst hfr'
    have hx' : some (0 : ℚ) = some x := hx
    injection hx' with h
    exact le_of_eq h
  exact ⟨hsc, C3_fuzzy_score_offset "gamma" frsC3 [] hsc⟩

/-! ### Claim C8 — tier exclusivity and one entry per id -/

/-- Claim C8: the tier-1 pass only appends entries whose ids are absent from
the tier-0 map, the tier-2 pass only appends entries whose ids are absent
after tiers 0–1, and the returned list never holds two entries with the same
document identifier. -/
theorem C8_tier_exclusivity (fuzzy : FuzzyOracle) (ai : AIOracle) (docs : List Doc)
    (inv : InvIdx) (q0 : String) :
    (∃ Δ1,
      afterTier1 (phraseOf (jsTrim q0)) docs (afterTier0 (phraseOf (jsTrim q0)) docs) =
        afterTier0 (phraseOf (jsTrim q0)) docs ++ Δ1 ∧
      ∀ r ∈ Δ1, hasId (afterTier0 (phraseOf (jsTrim q0)) docs) r.id = false) ∧
    (∃ Δ2,
      rawHits fuzzy docs inv (jsTrim q0) =
        afterTier1 (phraseOf (jsTrim q0)) docs (afterTier0 (phraseOf (jsTrim q0)) docs) ++ Δ2 ∧
      ∀ r ∈ Δ2,
        hasId (afterTier1 (phraseOf (jsTrim q0)) docs (afterTier0 (phraseOf (jsTrim q0)) docs))
          r.id = false) ∧
    ((rawHits fuzzy docs inv (jsTrim q0)).map (fun r => r.id)).Nodup ∧
    ((doSearchResults fuzzy ai docs inv q0).map (fun r => r.id)).Nodup := by
  obtain ⟨Δ1, e1, f1, n1⟩ :=
    afterTier1_extends (phraseOf (jsTrim q0)) docs (afterTier0 (phraseOf (jsTrim q0)) docs)
  obtain ⟨Δ2, e2, f2, n2⟩ :=
    afterTier2_extends (jsTrim q0)
      (fuzzyResultsOf fuzzy docs (jsTrim q0)
        (candidateSetOf inv (jsTrim q0) docs
          (afterTier1 (phraseOf (jsTrim q0)) docs (afterTier0 (phraseOf (jsTrim q0)) docs))))
      (afterTier1 (phraseOf (jsTrim q0)) docs (afterTier0 (phraseOf (jsTrim q0)) docs))
  have hraw : rawHits fuzzy docs inv (jsTrim q0) =
      afterTier2 (jsTrim q0)
        (fuzzyResultsOf fuzzy docs (jsTrim q0)
          (candidateSetOf inv (jsTrim q0) docs
            (afterTier1 (phraseOf (jsTrim q0)) docs (afterTier0 (phraseOf (jsTrim q0)) docs))))
        (afterTier1 (phraseOf (jsTrim q0)) docs (afterTier0 (phraseOf (jsTrim q0)) docs)) := rfl
  have hm2 : ((rawHits fuzzy docs inv (jsTrim q0)).map (fun r => r.id)).Nodup := by
    rw [hraw]
    exact n2 (n1 (afterTier0_nodup _ _))
  refine ⟨⟨Δ1, e1, fun r hr => (f1 r hr).1⟩,
    ⟨Δ2, by rw [hraw]; exact e2, fun r hr => (f2 r hr).1⟩, hm2, ?_⟩
  unfold doSearchResults
  by_cases hq : (jsTrim q0) = ""
  · simp [hq]
  · simp only [if_neg hq]
    by_cases hqm : strContains (jsTrim q0) "?"
    · simp only [if_pos hqm]
      split
      · simp
      · simp
    · simp only [if_neg hqm]
      have hperm : ((sortHits (rawHits fuzzy docs inv (jsTrim q0))).map (fun r => r.id)).Perm
          ((rawHits fuzzy docs inv (jsTrim q0)).map (fun r => r.id)) :=
        (sortHits_perm _).map _
      exact hperm.nodup_iff.mpr hm2

/-! ### Claim C10 — excerpts per tier -/

/-- Claim C10: a tier-0 entry's excerpt is exactly the document's full
title, and the `makeExcerpt` window (or the 250-character prefix) is built
only by the tier-1 and tier-2 passes. -/
theorem C10_tier0_excerpt (phrase q : String) (docs : List Doc) (frs : List FuzzyHit)
    (m1 : List SearchResult) :
    (∀ r ∈ afterTier0 phrase docs, r.excerpt = r.title ∧
      ∃ d ∈ docs, r.id = d.id ∧ r.excerpt = d.title) ∧
    (∀ r ∈ afterTier1 phrase docs (afterTier0 phrase docs),
      hasId (afterTier0 phrase docs) r.id = false →
      ∃ d ∈ docs, ∃ idx, strIndexOf (toLowerStr d.content) phrase = some idx ∧
        r.excerpt = makeExcerpt d.content idx phrase.length) ∧
    (∀ r ∈ afterTier2 q frs m1, hasId m1 r.id = false →
      ∃ fr ∈ frs, r = mkTier2 q fr) := by
  refine ⟨?_, ?_, ?_⟩
  · intro r hr
    obtain ⟨d, hd, _, rfl⟩ := mem_afterTier0 hr
    exact ⟨rfl, d, hd, rfl, rfl⟩
  · intro r hr hfree
    obtain ⟨Δ1, e1, f1, _⟩ := afterTier1_extends phrase docs (afterTier0 phrase docs)
    rw [e1] at hr
    rcases List.mem_append.mp hr with hr | hr
    · have hh : hasId (afterTier0 phrase docs) r.id = true := hasId_iff.mpr ⟨r, hr, rfl⟩
      rw [hh] at hfree
      simp at hfree
    · obtain ⟨_, d, hd, idx, hidx, rfl⟩ := f1 r hr
      exact ⟨d, hd, idx, hidx, rfl⟩
  · intro r hr hfree
    obtain ⟨Δ2, e2, f2, _⟩ := afterTier2_extends q frs m1
    rw [e2] at hr
    rcases List.mem_append.mp hr with hr | hr
    · have hh : hasId m1 r.id = true := hasId_iff.mpr ⟨r, hr, rfl⟩
      rw [hh] at hfree
      simp at hfree
    · obtain ⟨_, fr, hfr, rfl⟩ := f2 r hr
      exact ⟨fr, hfr, rfl⟩


/-! ### Claim C6 — the inverted-index invariant -/

theorem take_succ_eq {α : Type} : ∀ (l : List α) (k : ℕ),
    l.take (k + 1) = l.take k ++ (l.get? k).toList := by
  intro l
  induction l with
  | nil => intro k; simp
  | cons x t ih =>
    intro k
    cases k with
    | zero => simp
    | succ n => simp [ih n]

theorem mem_docTokens {d : Doc} {t : String} :
    t ∈ docTokens d ↔ t ∈ tokenize d.title ∨ t ∈ tokenize d.content := by
  unfold docTokens
  rw [mem_dedupKeepFirst, List.mem_append]

/-- Claim C6: after any number `k` of completed documents of a
duplicate-free manifest, an id lies in a token's posting set iff the table
document with that id contains the token in its title or content; and from
step `k` to step `k+1` posting sets only grow. -/
theorem C6_inverted_index_invariant (net : Network) (base : String)
    (manifest urls : List String) (hnd : manifest.Nodup) (k : ℕ) :
    (∀ t id,
      id ∈ invLookup (runIndex net base (manifest.take k) (urls.take k)).inverted t ↔
      ∃ d ∈ (runIndex net base (manifest.take k) (urls.take k)).docs, d.id = id ∧
        (t ∈ tokenize d.title ∨ t ∈ tokenize d.content)) ∧
    (∀ t id,
      id ∈ invLookup (runIndex net base (manifest.take k) (urls.take k)).inverted t →
      id ∈ invLookup
        (runIndex net base (manifest.take (k + 1)) (urls.take (k + 1))).inverted t) := by
  constructor
  · intro t id
    have hinv : invariantHolds (runIndex net base (manifest.take k) (urls.take k)) := by
      apply invariant_foldl
      · exact invariant_initState
      · intro p _ hp
        simp [initState] at hp
      · have h1 : (((manifest.take k).zip (urls.take k)).map Prod.fst).Sublist
            (manifest.take k) := zip_map_fst_sublist _ _
        exact List.Nodup.sublist (h1.trans (List.take_sublist _ _)) hnd
    rw [hinv t id]
    constructor
    · rintro ⟨d, hd, he, ht⟩
      exact ⟨d, hd, he, mem_docTokens.mp ht⟩
    · rintro ⟨d, hd, he, ht⟩
      exact ⟨d, hd, he, mem_docTokens.mpr ht⟩
  · intro t id hmem
    have hz1 : (manifest.take k).zip (urls.take k) = (manifest.zip urls).take k :=
      zip_take_eq _ _ _
    have hz2 : (manifest.take (k + 1)).zip (urls.take (k + 1)) =
        (manifest.zip urls).take (k + 1) := zip_take_eq _ _ _
    unfold runIndex at hmem ⊢
    rw [hz2, take_succ_eq, List.foldl_append, ← hz1]
    cases hget : (manifest.zip urls).get? k with
    | none =>
      simp only [hget, Option.toList_none, List.foldl_nil]
      exact hmem
    | some p =>
      simp only [hget, Option.toList_some, List.foldl_cons, List.foldl_nil]
      exact (mem_invLookup_foldInsert _ _ _ t id).mpr (Or.inl hmem)

/-- Network of the C6 witness. -/
def netC6 : Network := fun u =>
  if u = "b/a.txt" then FetchOutcome.ok "alpha beta" else FetchOutcome.notOk

theorem C6_witness :
    (["a.txt", "b.txt"] : List String).Nodup ∧
    ((∀ t id,
      id ∈ invLookup (runIndex netC6 "b/"
          ((["a.txt", "b.txt"] : List String).take 1)
          ((["u", "v"] : List String).take 1)).inverted t ↔
      ∃ d ∈ (runIndex netC6 "b/"
          ((["a.txt", "b.txt"] : List String).take 1)
          ((["u", "v"] : List String).take 1)).docs, d.id = id ∧
        (t ∈ tokenize d.title ∨ t ∈ tokenize d.content)) ∧
    (∀ t id,
      id ∈ invLookup (runIndex netC6 "b/"
          ((["a.txt", "b.txt"] : List String).take 1)
          ((["u", "v"] : List String).take 1)).inverted t →
      id ∈ invLookup (runIndex netC6 "b/"
          ((["a.txt", "b.txt"] : List String).take (1 + 1))
          ((["u", "v"] : List String).take (1 + 1))).inverted t)) :=
  ⟨by decide,
    C6_inverted_index_invariant netC6 "b/" ["a.txt", "b.txt"] ["u", "v"] (by decide) 1⟩

/-! ### Claim C7 — candidate narrowing is the posting-set intersection -/

theorem mem_narrowGo (inv : InvIdx) :
    ∀ (ts : List String) (acc : List String) (x : String),
      x ∈ narrowGo inv (some acc) ts ↔ x ∈ acc ∧ ∀ t ∈ ts, x ∈ invLookup inv t := by
  intro ts
  induction ts with
  | nil =>
    intro acc x
    simp [narrowGo]
  | cons t ts ih =>
    intro acc x
    rcases hg : invGet inv t with _ | s
    · have hl : invLookup inv t = [] := invGet_eq_none_lookup hg
      simp only [narrowGo, hg]
      constructor
      · intro hx
        exact absurd hx (List.not_mem_nil x)
      · rintro ⟨hacc, hall⟩
        have hh := hall t (List.mem_cons_self _ _)
        rw [hl] at hh
        exact absurd hh (List.not_mem_nil x)
    · have hl : invLookup inv t = s := invGet_eq_some_lookup hg
      simp only [narrowGo, hg]
      by_cases hem : acc.filter (fun id => decide (id ∈ s)) = []
      · rw [if_pos hem]
        constructor
        · intro hx
          exact absurd hx (List.not_mem_nil x)
        · rintro ⟨hacc, hall⟩
          have hxs : x ∈ s := by
            rw [← hl]
            exact hall t (List.mem_cons_self _ _)
          have hxf : x ∈ acc.filter (fun id => decide (id ∈ s)) :=
            List.mem_filter.mpr ⟨hacc, by simpa using hxs⟩
          rw [hem] at hxf
          exact absurd hxf (List.not_mem_nil x)
      · rw [if_neg hem, ih]
        rw [List.mem_filter]
        constructor
        · rintro ⟨⟨hacc, hxs⟩, hall⟩
          refine ⟨hacc, ?_⟩
          intro t' ht'
          rcases List.mem_cons.mp ht' with rfl | ht'
          · rw [hl]
            simpa using hxs
          · exact hall t' ht'
        · rintro ⟨hacc, hall⟩
          refine ⟨⟨hacc, ?_⟩, fun t' ht' => hall t' (List.mem_cons_of_mem _ ht')⟩
          have hh := hall t (List.mem_cons_self _ _)
          rw [hl] at hh
          simpa using hh

/-- Claim C7: for a non-empty token list the narrowing step returns exactly
the intersection of the tokens' posting sets; a token with no posting entry
forces the empty set; and over an index built by an indexing run with
distinct identifiers, membership is exactly "the document contains every
query token in its title or content". -/
theorem C7_candidate_intersection (inv : InvIdx) (tokens : List String)
    (hne : tokens ≠ []) :
    ∃ c, narrowCandidates inv tokens = some c ∧
      (∀ id, id ∈ c ↔ ∀ t ∈ tokens, id ∈ invLookup inv t) ∧
      ((∃ t ∈ tokens, invGet inv t = none) → c = []) ∧
      (∀ net base manifest urls, manifest.Nodup →
        inv = (runIndex net base manifest urls).inverted →
        ∀ id, id ∈ c ↔
          ∃ d ∈ (runIndex net base manifest urls).docs, d.id = id ∧
            ∀ t ∈ tokens, (t ∈ tokenize d.title ∨ t ∈ tokenize d.content)) := by
  cases tokens with
  | nil => exact absurd rfl hne
  | cons t ts =>
    have hmem : ∀ x, x ∈ narrowGo inv none (t :: ts) ↔
        ∀ t' ∈ t :: ts, x ∈ invLookup inv t' := by
      intro x
      rcases hg : invGet inv t with _ | s
      · have hl := invGet_eq_none_lookup hg
        simp only [narrowGo, hg]
        constructor
        · intro hx
          exact absurd hx (List.not_mem_nil x)
        · intro hall
          have hh := hall t (List.mem_cons_self _ _)
          rw [hl] at hh
          exact absurd hh (List.not_mem_nil x)
      · have hl := invGet_eq_some_lookup hg
        simp only [narrowGo, hg]
        by_cases hem : s = []
        · rw [if_pos hem]
          constructor
          · intro hx
            exact absurd hx (List.not_mem_nil x)
          · intro hall
            have hxs := hall t (List.mem_cons_self _ _)
            rw [hl, hem] at hxs
            exact absurd hxs (List.not_mem_nil x)
        · rw [if_neg hem, mem_narrowGo]
          constructor
          · rintro ⟨hxs, hall⟩
            intro t' ht'
            rcases List.mem_cons.mp ht' with rfl | ht'
            · rw [hl]
              exact hxs
            · exact hall t' ht'
          · intro hall
            refine ⟨?_, fun t' ht' => hall t' (List.mem_cons_of_mem _ ht')⟩
            rw [← hl]
            exact hall t (List.mem_cons_self _ _)
    refine ⟨narrowGo inv none (t :: ts), rfl, hmem, ?_, ?_⟩
    · rintro ⟨t', ht', hnone⟩
      refine List.eq_nil_iff_forall_not_mem.mpr ?_
      intro x hx
      have hh := (hmem x).mp hx t' ht'
      rw [invGet_eq_none_lookup hnone] at hh
      exact absurd hh (List.not_mem_nil x)
    · intro net base manifest urls hnd hinv id
      subst hinv
      have hfst := zip_map_fst_sublist manifest urls
      have hznd : ((manifest.zip urls).map Prod.fst).Nodup :=
        List.Nodup.sublist hfst hnd
      have hdocs : (runIndex net base manifest urls).docs =
          (manifest.zip urls).map (fun p => mkDoc net base p.1 p.2) := by
        have h := foldl_step_docs net base (manifest.zip urls) initState
          (by intro p _ hp; simp [initState] at hp) hznd
        simpa [runIndex, initState] using h
      have hids : ((runIndex net base manifest urls).docs.map (fun e => e.id)).Nodup := by
        rw [hdocs]
        have hcomp : ((manifest.zip urls).map
              (fun p => mkDoc net base p.1 p.2)).map (fun e => e.id) =
            (manifest.zip urls).map Prod.fst := by
          rw [List.map_map]
          rfl
        rw [hcomp]
        exact hznd
      have hinvar : invariantHolds (runIndex net base manifest urls) := by
        apply invariant_foldl
        · exact invariant_initState
        · intro p _ hp
          simp [initState] at hp
        · exact hznd
      rw [hmem id]
      constructor
      · intro hall
        obtain ⟨d0, hd0, he0, ht0⟩ := (hinvar t id).mp (hall t (List.mem_cons_self _ _))
        refine ⟨d0, hd0, he0, ?_⟩
        intro t' ht'
        obtain ⟨d', hd', he', ht''⟩ := (hinvar t' id).mp (hall t' ht')
        have hdd : d' = d0 :=
          List.inj_on_of_nodup_map hids hd' hd0 (by rw [he', he0])
        subst hdd
        exact mem_docTokens.mp ht''
      · rintro ⟨d, hd, he, hall⟩
        intro t' ht'
        exact (hinvar t' id).mpr ⟨d, hd, he, mem_docTokens.mpr (hall t' ht')⟩

/-- Inverted index of the C7 witness. -/
def invC7 : InvIdx := [("mars", ["a.txt", "b.txt"]), ("soil", ["a.txt"])]

theorem C7_witness :
    ((["mars", "soil"] : List String) ≠ []) ∧
    ∃ c, narrowCandidates invC7 ["mars", "soil"] = some c ∧
      (∀ id, id ∈ c ↔ ∀ t ∈ (["mars", "soil"] : List String), id ∈ invLookup invC7 t) ∧
      ((∃ t ∈ (["mars", "soil"] : List String), invGet invC7 t = none) → c = []) ∧
      (∀ net base manifest urls, manifest.Nodup →
        invC7 = (runIndex net base manifest urls).inverted →
        ∀ id, id ∈ c ↔
          ∃ d ∈ (runIndex net base manifest urls).docs, d.id = id ∧
            ∀ t ∈ (["mars", "soil"] : List String),
              (t ∈ tokenize d.title ∨ t ∈ tokenize d.content)) :=
  ⟨by decide, C7_candidate_intersection invC7 ["mars", "soil"] (by decide)⟩


/-! ### Claim C1 — punctuation-only queries -/

theorem candidateSetOf_no_tokens {inv : InvIdx} {q : String} {docs : List Doc}
    (htok : tokenize q = []) :
    candidateSetOf inv q docs [] = dedupKeepFirst (docs.map (fun d => d.id)) := by
  unfold candidateSetOf
  rw [htok]
  simp [narrowCandidates, hasId]

theorem fuzzyResultsOf_oracle {fuzzy : FuzzyOracle} {docs : List Doc} {q : String}
    {cands : List String} {fr : FuzzyHit} (h : fr ∈ fuzzyResultsOf fuzzy docs q cands) :
    ∃ corpus, fr ∈ fuzzy corpus q := by
  unfold fuzzyResultsOf at h
  split at h
  · exact absurd h (List.not_mem_nil fr)
  · dsimp only at h
    split at h
    · exact ⟨_, h⟩
    · exact ⟨_, h⟩

/-- Claim C1 (amended): with a punctuation-only query (zero tokens) that
does not contain `?` and matches no title or content exactly, the candidate
set defaults to all document ids, and every returned result is a tier-2 hit
with score at least 50.  (For punctuation queries containing `?` — such as
the spec's own example `"???"` — the sorted list is replaced by a single
AI-summary entry of score 0, see the counterexample.) -/
theorem C1_punct_fallback_amended (fuzzy : FuzzyOracle) (ai : AIOracle)
    (docs : List Doc) (inv : InvIdx) (q0 : String)
    (hq : jsTrim q0 ≠ "")
    (htok : tokenize (jsTrim q0) = [])
    (hqm : strContains (jsTrim q0) "?" = false)
    (ht0 : ∀ d ∈ docs, strContains (toLowerStr d.title) (phraseOf (jsTrim q0)) = false)
    (ht1 : ∀ d ∈ docs, strIndexOf (toLowerStr d.content) (phraseOf (jsTrim q0)) = none)
    (hsc : ∀ corpus qq, ∀ fr ∈ fuzzy corpus qq, ∀ x : ℚ, fr.score = some x → 0 ≤ x) :
    candidateSetOf inv (jsTrim q0) docs
        (afterTier1 (phraseOf (jsTrim q0)) docs (afterTier0 (phraseOf (jsTrim q0)) docs)) =
      dedupKeepFirst (docs.map (fun d => d.id)) ∧
    ∀ r ∈ doSearchResults fuzzy ai docs inv q0, 50 ≤ r.score := by
  have hm1 : afterTier1 (phraseOf (jsTrim q0)) docs
      (afterTier0 (phraseOf (jsTrim q0)) docs) = [] := by
    rw [afterTier0_eq_nil ht0]
    exact afterTier1_eq_self ht1
  have hc : candidateSetOf inv (jsTrim q0) docs
      (afterTier1 (phraseOf (jsTrim q0)) docs (afterTier0 (phraseOf (jsTrim q0)) docs)) =
      dedupKeepFirst (docs.map (fun d => d.id)) := by
    rw [hm1]
    exact candidateSetOf_no_tokens htok
  refine ⟨hc, ?_⟩
  intro r hr
  unfold doSearchResults at hr
  simp only [if_neg hq] at hr
  rw [if_neg (by simp [hqm])] at hr
  have hr2 : r ∈ rawHits fuzzy docs inv (jsTrim q0) := ((sortHits_perm _).mem_iff).mp hr
  have hraw : rawHits fuzzy docs inv (jsTrim q0) =
      afterTier2 (jsTrim q0)
        (fuzzyResultsOf fuzzy docs (jsTrim q0)
          (candidateSetOf inv (jsTrim q0) docs
            (afterTier1 (phraseOf (jsTrim q0)) docs (afterTier0 (phraseOf (jsTrim q0)) docs))))
        (afterTier1 (phraseOf (jsTrim q0)) docs (afterTier0 (phraseOf (jsTrim q0)) docs)) := rfl
  rw [hraw, hm1] at hr2
  obtain ⟨Δ, he, h2, _⟩ := afterTier2_extends (jsTrim q0)
    (fuzzyResultsOf fuzzy docs (jsTrim q0)
      (candidateSetOf inv (jsTrim q0) docs [])) []
  rw [he, List.nil_append] at hr2
  obtain ⟨_, fr, hfr, rfl⟩ := h2 r hr2
  obtain ⟨corpus, hcor⟩ := fuzzyResultsOf_oracle hfr
  exact mkTier2_score_ge (jsTrim q0) fr (fun x hx => hsc corpus (jsTrim q0) fr hcor x hx)

/-- The one-document table of the C1 counterexample and witness. -/
def docsC1 : List Doc := [⟨"a.txt", "a", "stuff", "u"⟩]

/-- A fuzzy oracle whose scores all equal 1/2 (within Fuse's [0,1] range). -/
def fzC1 : FuzzyOracle := fun corpus _ => corpus.map (fun d => ⟨d, some (1/2)⟩)

/-- An AI oracle returning the empty reply. -/
def aiC1 : AIOracle := fun _ _ => ""

/-- A fuzzy oracle returning no hits. -/
def fzNone : FuzzyOracle := fun _ _ => []

/-- Claim C1 counterexample: for the spec's own example query `"???"` the
candidate set does default to the whole table, but because the query
contains `?` the result list is replaced by one AI-summary entry of score 0
— not a pure fuzzy ranking with every score at least 50. -/
theorem C1_counterexample :
    ¬ (∀ r ∈ doSearchResults fzC1 aiC1 docsC1 ([] : InvIdx) "???", 50 ≤ r.score) := by
  decide

theorem C1_witness :
    (jsTrim "!!!" ≠ "") ∧ tokenize (jsTrim "!!!") = [] ∧
    strContains (jsTrim "!!!") "?" = false ∧
    (∀ d ∈ docsC1, strContains (toLowerStr d.title) (phraseOf (jsTrim "!!!")) = false) ∧
    (∀ d ∈ docsC1, strIndexOf (toLowerStr d.content) (phraseOf (jsTrim "!!!")) = none) ∧
    (∀ corpus qq, ∀ fr ∈ fzNone corpus qq, ∀ x : ℚ, fr.score = some x → 0 ≤ x) ∧
    (candidateSetOf ([] : InvIdx) (jsTrim "!!!") docsC1
        (afterTier1 (phraseOf (jsTrim "!!!")) docsC1
          (afterTier0 (phraseOf (jsTrim "!!!")) docsC1)) =
      dedupKeepFirst (docsC1.map (fun d => d.id)) ∧
      ∀ r ∈ doSearchResults fzNone aiC1 docsC1 ([] : InvIdx) "!!!", 50 ≤ r.score) := by
  have hsc : ∀ corpus qq, ∀ fr ∈ fzNone corpus qq, ∀ x : ℚ, fr.score = some x → 0 ≤ x := by
    intro corpus qq fr h
    exact absurd h (List.not_mem_nil fr)
  exact ⟨by decide, by decide, by decide, by decide, by decide, hsc,
    C1_punct_fallback_amended fzNone aiC1 docsC1 [] "!!!" (by decide) (by decide)
      (by decide) (by decide) (by decide) hsc⟩


end AstroPhoenix
